/-
Verification of the encrypted-script execution pipeline of
src/ThinClient/windows-agent.py: a shallow embedding of the request handler
(`handle_encrypted_execution`), the decrypt/materialize/execute/cleanup
routine (`decrypt_and_execute`) with its line-continuation repair loop, and
the screenshot enrichment (`add_base64_screenshot`), together with theorems
settling the frozen claims about them. Strings are modelled as their
character sequences; external effects (AEAD, the filesystem, the child
process, JSON parsing of stdout, image re-encoding) are oracle fields of an
`Env` record, and each run yields its response object together with the
ordered trace of effect events it performed.
-/
import Mathlib

namespace Agent

/-- Python whitespace characters (as recognized by `str.strip` / `str.rstrip`). -/
def isPySpace (c : Char) : Bool :=
  c = ' ' || c = '\t' || c = '\n' || c = '\r' || c = '\x0b' || c = '\x0c'

def charRstrip (l : List Char) : List Char :=
  (l.reverse.dropWhile isPySpace).reverse

def isBlankL (l : List Char) : Bool := l.all isPySpace

def endsBackslashL (l : List Char) : Bool :=
  match l.reverse.dropWhile isPySpace with
  | c :: _ => c = '\\'
  | [] => false

/-- Split a character list at every occurrence of the separator `sep`. -/
def splitC (sep : Char) : List Char → List (List Char)
  | [] => [[]]
  | c :: cs =>
    if c = sep then [] :: splitC sep cs
    else
      match splitC sep cs with
      | [] => [[c]]
      | l :: ls => (c :: l) :: ls

def joinC (sep : Char) : List (List Char) → List Char
  | [] => []
  | [l] => l
  | l :: ls => l ++ sep :: joinC sep ls

def dropBlanksL : List (List Char) → List (List Char)
  | [] => []
  | y :: ys => if isBlankL y then dropBlanksL ys else y :: ys

/-- Fuel-indexed structural version of the single repair scan. -/
def fixRecF : Nat → List (List Char) → List (List Char)
  | 0, _ => []
  | _ + 1, [] => []
  | fuel + 1, l :: ls =>
    if endsBackslashL l then
      match dropBlanksL ls with
      | [] => [charRstrip l]
      | y :: rest => (charRstrip l ++ '\n' :: y) :: fixRecF fuel rest
    else l :: fixRecF fuel ls

def fixRec (ls : List (List Char)) : List (List Char) := fixRecF ls.length ls

/-- Fuel-indexed blank-skipping index scan (the inner `while` of the Python loop). -/
def skipBlanksF : Nat → List (List Char) → Nat → Nat
  | 0, _, i => i
  | fuel + 1, lines, i =>
    if h : i < lines.length then
      if isBlankL lines[i] then skipBlanksF fuel lines (i + 1) else i
    else i

def skipBlanks (lines : List (List Char)) (i : Nat) : Nat :=
  skipBlanksF lines.length lines i

def appendLast (acc : List (List Char)) (s : List Char) : List (List Char) :=
  match acc with
  | [] => []
  | [x] => [x ++ s]
  | x :: rest => x :: appendLast rest s

/-- Fuel-indexed structural version of the Python `while` loop at
windows-agent.py lines 139-152. -/
def fixLoopF : Nat → List (List Char) → Nat → List (List Char) → List (List Char)
  | 0, _, _, acc => acc
  | fuel + 1, lines, i, acc =>
    if h : i < lines.length then
      if endsBackslashL lines[i] then
        let acc1 := acc ++ [charRstrip lines[i]]
        let j := skipBlanks lines (i + 1)
        if h2 : j < lines.length then
          fixLoopF fuel lines (j + 1) (appendLast acc1 ('\n' :: lines[j]))
        else acc1
      else fixLoopF fuel lines (i + 1) (acc ++ [lines[i]])
    else acc

def fixLoop (lines : List (List Char)) (i : Nat) (acc : List (List Char)) :
    List (List Char) :=
  fixLoopF (lines.length + 1) lines i acc

def repairChars (s : List Char) : List Char :=
  joinC '\n' (fixLoop (splitC '\n' s) 0 [])

def resplitC (sep : Char) (F : List (List Char)) : List (List Char) :=
  (F.map (splitC sep)).flatten

/-- Scan forward over immediately following blank lines and return the next
non-blank line together with the lines after it, if any. -/
def findNextNonblank : List (List Char) → Option (List Char × List (List Char))
  | [] => none
  | y :: ys => if isBlankL y then findNextNonblank ys else some (y, ys)

/-- Condition as the claim words it: the right-stripped content ends with a
single backslash (a line whose stripped content ends in two or more
backslashes does not qualify). -/
def endsSingleBackslash (l : List Char) : Bool :=
  match (charRstrip l).reverse with
  | '\\' :: '\\' :: _ => false
  | '\\' :: _ => true
  | _ => false

/-- Condition as the code actually behaves: the right-stripped content's last
character is a backslash, whether or not it is preceded by further
backslashes. -/
def endsAnyBackslash (l : List Char) : Bool :=
  (charRstrip l).getLast? == some '\\'

/-- Spec-worded repair scan, parameterized by the continuation condition:
a qualifying line is emitted right-stripped, the following blank lines are
skipped, and the next non-blank line is appended joined by a newline. -/
def specFixF (cond : List Char → Bool) : Nat → List (List Char) → List (List Char)
  | 0, _ => []
  | _ + 1, [] => []
  | fuel + 1, l :: ls =>
    if cond l then
      match findNextNonblank ls with
      | none => [charRstrip l]
      | some (y, rest) => (charRstrip l ++ '\n' :: y) :: specFixF cond fuel rest
    else l :: specFixF cond fuel ls

def specFix (cond : List Char → Bool) (ls : List (List Char)) : List (List Char) :=
  specFixF cond ls.length ls

def specRepair (cond : List Char → Bool) (s : List Char) : List Char :=
  joinC '\n' (specFix cond (splitC '\n' s))

/-- JSON values as produced by json.loads / consumed by json.dumps. -/
inductive JValue where
  | null
  | bool (b : Bool)
  | num (n : Int)
  | str (s : String)
  | arr (xs : List JValue)
  | obj (fields : List (String × JValue))

/-- A Python dict produced from / serialized to a JSON object: an
insertion-ordered association list. -/
abbrev Obj := List (String × JValue)

/-- `d.get(k)`: value of the first binding of `k`, if any. -/
def dictGet (k : String) : Obj → Option JValue
  | [] => none
  | (k', v) :: rest => if k' == k then some v else dictGet k rest

/-- `k in d`. -/
def hasKey (k : String) (o : Obj) : Bool := (dictGet k o).isSome

/-- `d[k] = v`: update the existing binding in place, else append. -/
def dictInsert (k : String) (v : JValue) : Obj → Obj
  | [] => [(k, v)]
  | (k', v') :: rest =>
    if k' == k then (k', v) :: rest else (k', v') :: dictInsert k v rest

/-- `{**a, **b}`: start from `a` and assign every binding of `b` in order. -/
def dictMerge (a b : Obj) : Obj :=
  b.foldl (fun acc kv => dictInsert kv.1 kv.2 acc) a

/-- Python truthiness of an optional JSON value (`None`, `False`, `0`, `""`,
`[]` and `{}` are falsy). -/
def truthy : Option JValue → Bool
  | none => false
  | some .null => false
  | some (.bool b) => b
  | some (.num n) => n != 0
  | some (.str s) => s != ""
  | some (.arr xs) => !xs.isEmpty
  | some (.obj fs) => !fs.isEmpty

/-- Python `str.strip()`. -/
def pyStrip (s : String) : String :=
  ⟨((s.data.dropWhile isPySpace).reverse.dropWhile isPySpace).reverse⟩

/-- `content.replace('\r\n', '\n').replace('\r', '\n')`. -/
def normNlChars : List Char → List Char
  | [] => []
  | '\r' :: '\n' :: rest => '\n' :: normNlChars rest
  | '\r' :: rest => '\n' :: normNlChars rest
  | c :: rest => c :: normNlChars rest

/-- `True` whether the path begins with the separator (an absolute POSIX-style
path). -/
def isAbs (l : List Char) : Bool :=
  match l with
  | '/' :: _ => true
  | _ => false

/-- `os.path.join(d, n)` for a normalized, non-empty `d` that does not end in
a separator: an absolute `n` discards `d`, otherwise the parts are glued with
one separator. -/
def joinPathChars (d n : List Char) : List Char :=
  if isAbs n then n else d ++ '/' :: n

def joinStr (dir name : String) : String := ⟨joinPathChars dir.data name.data⟩

/-- Collapse `.`, empty and `..` components the way the OS resolves the
written path. -/
def normComps (cs : List (List Char)) : List (List Char) :=
  cs.foldl (fun acc c =>
    if c = [] ∨ c = ['.'] then acc
    else if c = ['.', '.'] then acc.dropLast
    else acc ++ [c]) []

def resolveComps (l : List Char) : List (List Char) := normComps (splitC '/' l)

/-- `shutil.rmtree(dir)` removes exactly the tree rooted at `dir`: a path is
removed iff its resolved form extends the resolved sandbox directory. -/
def removedByCleanup (dir target : List Char) : Bool :=
  (isAbs dir == isAbs target) && (resolveComps dir).isPrefixOf (resolveComps target)

/-- The command a child process is spawned with. -/
inductive ProcKind where
  | pythonScript (path : String) (args : List String) (cwd : String)
  | powershellCmd (cmd : String)
deriving DecidableEq

/-- Observable side effects of one request, in program order. -/
inductive Event where
  | readBody
  | aeadOpen (key iv data : List Nat)
  | mkdtemp
  | fileWrite (path : String) (ok : Bool)
  | procRun (kind : ProcKind) (timeoutSecs : Nat)
  | rmtree (ok : Bool)
deriving DecidableEq

/-- Outcome of `subprocess.run`: completion with captured streams, or a
`TimeoutExpired` exception carrying its rendered message. -/
inductive ExecOutcome where
  | done (rc : Int) (out err : String)
  | timeout (msg : String)

/-- Outcome of `json.loads(result.stdout)`: a decode error, a non-object
value (on which the subsequent `.get` raises), or an object. -/
inductive ParseResult where
  | notJson
  | nonObj (msg : String)
  | objVal (o : Obj)

/-- One entry of `helperScripts`, hex fields already decoded to bytes. -/
structure Helper where
  name : String
  encryptedContent : List Nat
  iv : List Nat
  authTag : List Nat

/-- The decoded envelope of one /execute-encrypted request
(windows-agent.py lines 87-94). -/
structure Envelope where
  encryptedData : List Nat
  iv : List Nat
  authTag : List Nat
  key : List Nat
  typeField : Option String
  arguments : List String
  scriptName : String
  helperScripts : List Helper

/-- `payload.get('type', 'python')`. -/
def scriptTypeOf (e : Envelope) : String := e.typeField.getD "python"

/-- The ambient effects of one request: the AEAD primitive, UTF-8 decoding,
the sandbox directory name `mkdtemp` returns, file writes, process execution,
stdout JSON parsing, the screenshot filesystem probe and PNG/base64
re-encoding, and whether `shutil.rmtree` succeeds. -/
structure Env where
  apiKey : String
  aead : List Nat → List Nat → List Nat → Except String (List Nat)
  utf8 : List Nat → List Char
  sandboxDir : String
  write : String → String → Except String Unit
  exec : ProcKind → ExecOutcome
  parseJson : String → ParseResult
  fileExists : String → Bool
  imgEncode : String → Option String
  rmtreeOk : Bool

/-- The dual-layout AEAD open (windows-agent.py lines 103-107 and 170-173):
first the tag appended to the ciphertext, then — only if that raised — the
ciphertext alone; the second failure is the one that propagates. -/
def tryDecrypt (aead : List Nat → List Nat → List Nat → Except String (List Nat))
    (key iv ct tag : List Nat) : Except String (List Nat) :=
  match aead key iv (ct ++ tag) with
  | .ok p => .ok p
  | .error _ => aead key iv ct

/-- The AEAD open calls actually issued by `tryDecrypt`. -/
def aeadAttemptEvents (aead : List Nat → List Nat → List Nat → Except String (List Nat))
    (key iv ct tag : List Nat) : List Event :=
  match aead key iv (ct ++ tag) with
  | .ok _ => [.aeadOpen key iv (ct ++ tag)]
  | .error _ => [.aeadOpen key iv (ct ++ tag), .aeadOpen key iv ct]

/-- One iteration of the helper loop (windows-agent.py lines 162-186): decrypt
with the envelope key and the helper's own iv/tag, normalize line endings,
write at the joined path; any failure is caught and the helper skipped. -/
def processHelper (env : Env) (key : List Nat) (dir : String) (h : Helper) :
    List Event :=
  let attempts := aeadAttemptEvents env.aead key h.iv h.encryptedContent h.authTag
  match tryDecrypt env.aead key h.iv h.encryptedContent h.authTag with
  | .error _ => attempts
  | .ok p =>
    let content : String := ⟨normNlChars (env.utf8 p)⟩
    let path := joinStr dir h.name
    match env.write path content with
    | .ok _ => attempts ++ [.fileWrite path true]
    | .error _ => attempts ++ [.fileWrite path false]

/-- windows-agent.py lines 251-291: return the response plus a `screenshot`
field, or `None` when the path is missing/falsy/not a file or the image
re-encoding raises. -/
def addBase64Screenshot (env : Env) (response : Obj) : Option Obj :=
  match dictGet "path" response with
  | none => none
  | some v =>
    if truthy (some v) then
      match v with
      | .str p =>
        if env.fileExists p then
          match env.imgEncode p with
          | some b64 => some (dictInsert "screenshot" (.str b64) response)
          | none => none
        else none
      | _ => none
    else none

/-- windows-agent.py lines 218-228: gate the enrichment on a truthy `success`
and a present `path`, then wrap as `{'success': True, **output_json}`. -/
def normalizeStructured (env : Env) (o : Obj) : Obj :=
  let o2 :=
    if truthy (dictGet "success" o) && hasKey "path" o then
      match addBase64Screenshot env o with
      | some enhanced => enhanced
      | none => o
    else o
  dictMerge [("success", .bool true)] o2

def execFailResp (msg : String) : Obj :=
  [("success", .bool false), ("error", .str ("Decryption/execution failed: " ++ msg))]

/-- windows-agent.py lines 188-234: write the main script, run the
interpreter with a 60-second timeout, and normalize the captured output.
An error value is an exception escaping toward the outer handler. -/
def mainPhase (env : Env) (e : Envelope) (dir : String) (script : String) :
    Except String Obj × List Event :=
  let mainPath := joinStr dir e.scriptName
  match env.write mainPath script with
  | .error msg => (.error msg, [.fileWrite mainPath false])
  | .ok _ =>
    let kind := ProcKind.pythonScript mainPath e.arguments dir
    let wev := [Event.fileWrite mainPath true, Event.procRun kind 60]
    match env.exec kind with
    | .timeout msg => (.error msg, wev)
    | .done rc out err =>
      if rc != 0 then
        (.ok [("success", .bool false),
              ("error", .str (if err != "" then pyStrip err else "Script execution failed")),
              ("output", .str (pyStrip out))], wev)
      else
        match env.parseJson out with
        | .notJson => (.ok [("success", .bool true), ("output", .str (pyStrip out))], wev)
        | .nonObj msg => (.error msg, wev)
        | .objVal o => (.ok (normalizeStructured env o), wev)

/-- The body of the inner `try` (windows-agent.py lines 160-234): the helper
loop never raises outward, then the main phase runs. -/
def runScriptBody (env : Env) (e : Envelope) (dir : String) (script : String) :
    Except String Obj × List Event :=
  let hev := e.helperScripts.foldl (fun acc h => acc ++ processHelper env e.key dir h) []
  let m := mainPhase env e dir script
  (m.1, hev ++ m.2)

/-- windows-agent.py lines 83-249 (`decrypt_and_execute`): decrypt the main
blob, dispatch on the script type, and on the script path create the sandbox,
run the inner body under `try/finally` (the `finally` removes the sandbox and
swallows its own failure), with every exception converted by the outer
`except` into a structured failure response. -/
def decryptAndExecute (env : Env) (e : Envelope) : Obj × List Event :=
  let mev := aeadAttemptEvents env.aead e.key e.iv e.encryptedData e.authTag
  match tryDecrypt env.aead e.key e.iv e.encryptedData e.authTag with
  | .error msg => (execFailResp msg, mev)
  | .ok plain =>
    if scriptTypeOf e = "powershell" then
      let cmd : String := ⟨env.utf8 plain⟩
      let kind := ProcKind.powershellCmd cmd
      let resp :=
        match env.exec kind with
        | .timeout msg => execFailResp msg
        | .done rc out err =>
          [("success", .bool (rc == 0)),
           ("output", .str (pyStrip out)),
           ("error", if err != "" then .str (pyStrip err) else .null)]
      (resp, mev ++ [Event.procRun kind 30])
    else
      let script : String := ⟨repairChars (normNlChars (env.utf8 plain))⟩
      let dir := env.sandboxDir
      let body := runScriptBody env e dir script
      let resp :=
        match body.1 with
        | .ok r => r
        | .error msg => execFailResp msg
      (resp, mev ++ [Event.mkdtemp] ++ body.2 ++ [Event.rmtree env.rmtreeOk])

/-- Decoding of the request body, seen from the handler: `json.loads`
failures escape to the 500 handler; missing/invalid envelope fields raise
inside `decrypt_and_execute` and become a structured failure. -/
inductive BodyResult where
  | badJson (msg tb : String)
  | badEnvelope (msg : String)
  | okEnv (e : Envelope)

/-- windows-agent.py line 46: the Authorization header must carry
`Bearer <API_KEY>`. -/
def authOk (auth : Option String) (key : String) : Bool :=
  let h := (auth.getD "").data
  "Bearer ".data.isPrefixOf h && (h.drop 7 == key.data)

def unauthorizedResp : Obj := [("success", .bool false), ("error", .str "Unauthorized")]

/-- windows-agent.py lines 42-81 (`handle_encrypted_execution`): the
credential gate, then body read/decode, then `decrypt_and_execute`. The
returned triple is HTTP status, response object, event trace. -/
def handleEncryptedExecution (env : Env) (auth : Option String) (body : BodyResult) :
    Nat × Obj × List Event :=
  if authOk auth env.apiKey then
    match body with
    | .badJson msg tb =>
      (500, [("success", .bool false), ("error", .str msg), ("trace", .str tb)],
        [.readBody])
    | .badEnvelope msg => (200, execFailResp msg, [.readBody])
    | .okEnv e =>
      let r := decryptAndExecute env e
      (200, r.1, .readBody :: r.2)
  else (401, unauthorizedResp, [])

def isAeadEv : Event → Bool
  | .aeadOpen _ _ _ => true
  | _ => false

def isRmtreeEv : Event → Bool
  | .rmtree _ => true
  | _ => false

def testEnv : Env where
  apiKey := "secret"
  aead := fun _ _ d => .ok d
  utf8 := fun b => b.map Char.ofNat
  sandboxDir := "/tmp/mcp_script_t"
  write := fun _ _ => .ok ()
  exec := fun _ => .done 0 "out" ""
  parseJson := fun _ => .notJson
  fileExists := fun _ => false
  imgEncode := fun _ => none
  rmtreeOk := true

def testEnvelope : Envelope where
  encryptedData := [10]
  iv := [1]
  authTag := [2]
  key := [3]
  typeField := none
  arguments := ["a"]
  scriptName := "main.py"
  helperScripts := [⟨"helper.py", [11], [4], [5]⟩]

def timeoutEnv : Env := { testEnv with exec := fun _ => .timeout "Command timed out after 60 seconds" }

def boomEnv : Env := { testEnv with exec := fun _ => .done 1 "partial out" "boom" }

def shotEnv : Env :=
  { testEnv with fileExists := fun _ => true, imgEncode := fun _ => some "NEWB64" }

def plainComp (c : List Char) : Prop :=
  c ≠ [] ∧ c ≠ ['.'] ∧ c ≠ ['.', '.'] ∧ '/' ∉ c

instance : DecidablePred plainComp := fun c =>
  decidable_of_iff (c ≠ [] ∧ c ≠ ['.'] ∧ c ≠ ['.', '.'] ∧ '/' ∉ c) Iff.rfl

def normStep (acc : List (List Char)) (c : List Char) : List (List Char) :=
  if c = [] ∨ c = ['.'] then acc
  else if c = ['.', '.'] then acc.dropLast
  else acc ++ [c]

theorem dropBlanksL_length (ls : List (List Char)) :
    (dropBlanksL ls).length ≤ ls.length := by
  induction ls with
  | nil => simp [dropBlanksL]
  | cons y ys ih =>
    simp only [dropBlanksL]
    split
    · exact Nat.le_succ_of_le ih
    · simp

theorem fixRecF_mono : ∀ (f g : Nat) (ls : List (List Char)),
    ls.length ≤ f → ls.length ≤ g → fixRecF f ls = fixRecF g ls := by
  intro f
  induction f with
  | zero =>
    intro g ls hf _
    have : ls = [] := List.length_eq_zero.mp (Nat.le_zero.mp hf)
    subst this
    cases g <;> rfl
  | succ f ih =>
    intro g ls hf hg
    cases ls with
    | nil => cases g <;> rfl
    | cons l ls =>
      cases g with
      | zero => exact absurd hg (by simp)
      | succ g =>
        simp only [fixRecF]
        split
        · split
          · rfl
          · next y rest hd =>
            have hlen : rest.length < ls.length + 1 := by
              have h1 := dropBlanksL_length ls
              rw [hd] at h1
              simp only [List.length_cons] at h1
              omega
            simp only [List.length_cons] at hf hg
            rw [ih g rest (by omega) (by omega)]
        · simp only [List.length_cons] at hf hg
          rw [ih g ls (by omega) (by omega)]

theorem fixRec_cons (l : List Char) (ls : List (List Char)) :
    fixRec (l :: ls) =
      if endsBackslashL l then
        match dropBlanksL ls with
        | [] => [charRstrip l]
        | y :: rest => (charRstrip l ++ '\n' :: y) :: fixRec rest
      else l :: fixRec ls := by
  show fixRecF (ls.length + 1) (l :: ls) = _
  simp only [fixRecF]
  split
  · split
    · rfl
    · next y rest hd =>
      have hlen : rest.length < ls.length + 1 := by
        have h1 := dropBlanksL_length ls
        rw [hd] at h1
        simp only [List.length_cons] at h1
        omega
      rw [fixRecF_mono ls.length rest.length rest (by omega) (by omega)]
      rfl
  · rfl

theorem skipBlanksF_ge : ∀ (f : Nat) (lines : List (List Char)) (i : Nat),
    i ≤ skipBlanksF f lines i := by
  intro f
  induction f with
  | zero => intro lines i; exact Nat.le_refl i
  | succ f ih =>
    intro lines i
    simp only [skipBlanksF]
    split
    · split
      · exact Nat.le_trans (Nat.le_succ i) (ih lines (i + 1))
      · exact Nat.le_refl i
    · exact Nat.le_refl i

theorem skipBlanksF_mono : ∀ (f g : Nat) (lines : List (List Char)) (i : Nat),
    lines.length - i ≤ f → lines.length - i ≤ g →
    skipBlanksF f lines i = skipBlanksF g lines i := by
  intro f
  induction f with
  | zero =>
    intro g lines i hf _
    have hi : ¬ i < lines.length := by omega
    cases g with
    | zero => rfl
    | succ g => simp only [skipBlanksF, dif_neg hi]
  | succ f ih =>
    intro g lines i hf hg
    cases g with
    | zero =>
      have hi : ¬ i < lines.length := by omega
      simp only [skipBlanksF, dif_neg hi]
    | succ g =>
      simp only [skipBlanksF]
      split
      · split
        · exact ih g lines (i + 1) (by omega) (by omega)
        · rfl
      · rfl

theorem skipBlanks_eq (lines : List (List Char)) (i : Nat) :
    skipBlanks lines i =
      if h : i < lines.length then
        if isBlankL lines[i] then skipBlanks lines (i + 1) else i
      else i := by
  show skipBlanksF lines.length lines i = _
  rw [skipBlanksF_mono lines.length (lines.length + 1) lines i (by omega) (by omega)]
  simp only [skipBlanksF]
  rfl

theorem splitC_ne_nil (sep : Char) (l : List Char) : splitC sep l ≠ [] := by
  induction l with
  | nil => simp [splitC]
  | cons c cs ih =>
    simp only [splitC]
    split
    · simp
    · split
      · simp
      · simp

theorem splitC_append_sep (sep : Char) (a b : List Char) :
    splitC sep (a ++ sep :: b) = splitC sep a ++ splitC sep b := by
  induction a with
  | nil => simp [splitC]
  | cons c cs ih =>
    simp only [List.cons_append, splitC, List.append_eq]
    by_cases hc : c = sep
    · rw [if_pos hc, if_pos hc, ih]
      rfl
    · rw [if_neg hc, if_neg hc, ih]
      cases h : splitC sep cs with
      | nil => exact absurd h (splitC_ne_nil sep cs)
      | cons l ls => simp

theorem splitC_noSep (sep : Char) (l : List Char) (h : sep ∉ l) :
    splitC sep l = [l] := by
  induction l with
  | nil => rfl
  | cons c cs ih =>
    have hc : ¬ c = sep := fun he => h (he ▸ List.mem_cons_self c cs)
    have hcs : sep ∉ cs := fun hm => h (List.mem_cons_of_mem c hm)
    simp only [splitC, if_neg hc, ih hcs]

theorem mem_splitC_noSep (sep : Char) (s : List Char) :
    ∀ l ∈ splitC sep s, sep ∉ l := by
  induction s with
  | nil =>
    intro l hl
    simp [splitC] at hl
    simp [hl]
  | cons c cs ih =>
    intro l hl
    simp only [splitC] at hl
    by_cases hc : c = sep
    · rw [if_pos hc] at hl
      rcases List.mem_cons.mp hl with h1 | h1
      · simp [h1]
      · exact ih l h1
    · rw [if_neg hc] at hl
      cases h : splitC sep cs with
      | nil => exact absurd h (splitC_ne_nil sep cs)
      | cons x xs =>
        rw [h] at hl
        rcases List.mem_cons.mp hl with h1 | h1
        · subst h1
          intro hm
          rcases List.mem_cons.mp hm with h2 | h2
          · exact hc h2.symm
          · exact ih x (h ▸ List.mem_cons_self x xs) h2
        · exact ih l (h ▸ List.mem_cons_of_mem x h1)

theorem splitC_joinC (sep : Char) (F : List (List Char)) (h : F ≠ []) :
    splitC sep (joinC sep F) = resplitC sep F := by
  induction F with
  | nil => exact absurd rfl h
  | cons l ls ih =>
    cases ls with
    | nil => simp [joinC, resplitC]
    | cons m ms =>
      show splitC sep (l ++ sep :: joinC sep (m :: ms)) = _
      rw [splitC_append_sep, ih (by simp)]
      simp [resplitC]

theorem dropWhile_twice (p : Char → Bool) (l : List Char) :
    (l.dropWhile p).dropWhile p = l.dropWhile p := by
  induction l with
  | nil => rfl
  | cons c cs ih =>
    by_cases hc : p c
    · simp only [List.dropWhile_cons, if_pos hc]
      exact ih
    · simp only [List.dropWhile_cons, if_neg hc]

theorem charRstrip_idem (l : List Char) : charRstrip (charRstrip l) = charRstrip l := by
  simp only [charRstrip, List.reverse_reverse, dropWhile_twice]

theorem endsBackslashL_charRstrip (l : List Char) :
    endsBackslashL (charRstrip l) = endsBackslashL l := by
  simp only [endsBackslashL, charRstrip, List.reverse_reverse, dropWhile_twice]

theorem mem_charRstrip (l : List Char) (c : Char) (h : c ∈ charRstrip l) : c ∈ l := by
  simp only [charRstrip, List.mem_reverse] at h
  have h2 := (List.dropWhile_sublist (l := l.reverse) isPySpace).mem h
  exact List.mem_reverse.mp h2

theorem dropBlanksL_head (ls : List (List Char)) (y : List Char) (rest : List (List Char))
    (h : dropBlanksL ls = y :: rest) : isBlankL y = false := by
  induction ls with
  | nil => simp [dropBlanksL] at h
  | cons x xs ih =>
    simp only [dropBlanksL] at h
    by_cases hx : isBlankL x
    · rw [if_pos hx] at h
      exact ih h
    · rw [if_neg hx] at h
      cases h
      exact Bool.eq_false_iff.mpr hx

theorem dropBlanksL_mem (ls : List (List Char)) (x : List Char)
    (h : x ∈ dropBlanksL ls) : x ∈ ls := by
  induction ls with
  | nil => simp [dropBlanksL] at h
  | cons z zs ih =>
    simp only [dropBlanksL] at h
    by_cases hz : isBlankL z
    · rw [if_pos hz] at h
      exact List.mem_cons_of_mem z (ih h)
    · rw [if_neg hz] at h
      exact h

theorem appendLast_concat (a : List (List Char)) (x s : List Char) :
    appendLast (a ++ [x]) s = a ++ [x ++ s] := by
  induction a with
  | nil => rfl
  | cons c as ih =>
    cases as with
    | nil => rfl
    | cons d ds =>
      show c :: appendLast ((d :: ds) ++ [x]) s = c :: ((d :: ds) ++ [x ++ s])
      rw [ih]

theorem drop_skipBlanks : ∀ (fuel : Nat) (lines : List (List Char)) (i : Nat),
    lines.length - i ≤ fuel →
    lines.drop (skipBlanks lines i) = dropBlanksL (lines.drop i) := by
  intro fuel
  induction fuel with
  | zero =>
    intro lines i hf
    have hi : ¬ i < lines.length := by omega
    rw [skipBlanks_eq, dif_neg hi]
    simp [List.drop_eq_nil_of_le (show lines.length ≤ i by omega), dropBlanksL]
  | succ fuel ih =>
    intro lines i hf
    rw [skipBlanks_eq]
    by_cases hi : i < lines.length
    · rw [dif_pos hi]
      by_cases hb : isBlankL lines[i]
      · rw [if_pos hb]
        rw [List.drop_eq_getElem_cons hi]
        simp only [dropBlanksL, if_pos hb]
        exact ih lines (i + 1) (by omega)
      · rw [if_neg hb]
        conv_rhs => rw [List.drop_eq_getElem_cons hi]
        simp only [dropBlanksL, if_neg hb]
        rw [List.drop_eq_getElem_cons hi]
    · rw [dif_neg hi]
      simp [List.drop_eq_nil_of_le (show lines.length ≤ i by omega), dropBlanksL]

theorem fixLoopF_eq_fixRec : ∀ (fuel : Nat) (lines : List (List Char)) (i : Nat)
    (acc : List (List Char)), lines.length - i ≤ fuel →
    fixLoopF fuel lines i acc = acc ++ fixRec (lines.drop i) := by
  intro fuel
  induction fuel with
  | zero =>
    intro lines i acc hf
    rw [List.drop_eq_nil_of_le (by omega)]
    simp [fixLoopF, fixRec, fixRecF]
  | succ fuel ih =>
    intro lines i acc hf
    by_cases hi : i < lines.length
    · rw [List.drop_eq_getElem_cons hi, fixRec_cons]
      simp only [fixLoopF, dif_pos hi]
      by_cases hb : endsBackslashL lines[i]
      · rw [if_pos hb, if_pos hb]
        have hdrop := drop_skipBlanks (fuel + 1) lines (i + 1) (by omega)
        have hge : i + 1 ≤ skipBlanks lines (i + 1) := skipBlanksF_ge _ lines (i + 1)
        by_cases hj : skipBlanks lines (i + 1) < lines.length
        · rw [dif_pos hj]
          rw [List.drop_eq_getElem_cons hj] at hdrop
          rw [← hdrop]
          rw [ih lines (skipBlanks lines (i + 1) + 1) _ (by omega)]
          rw [appendLast_concat]
          simp
        · rw [dif_neg hj]
          rw [List.drop_eq_nil_of_le (by omega)] at hdrop
          rw [← hdrop]
      · rw [if_neg hb, if_neg hb]
        rw [ih lines (i + 1) _ (by omega)]
        simp
    · simp only [fixLoopF, dif_neg hi]
      rw [List.drop_eq_nil_of_le (by omega)]
      simp [fixRec, fixRecF]

theorem fixLoop_eq_fixRec (lines : List (List Char)) :
    fixLoop lines 0 [] = fixRec lines := by
  have h := fixLoopF_eq_fixRec (lines.length + 1) lines 0 [] (by omega)
  simpa [fixLoop] using h

theorem fixRec_ne_nil (L : List (List Char)) (h : L ≠ []) : fixRec L ≠ [] := by
  cases L with
  | nil => exact absurd rfl h
  | cons l ls =>
    rw [fixRec_cons]
    split
    · split
      · simp
      · simp
    · simp

theorem fixRec_resplit : ∀ (n : Nat) (L : List (List Char)), L.length ≤ n →
    (∀ l ∈ L, '\n' ∉ l) →
    fixRec (resplitC '\n' (fixRec L)) = fixRec L := by
  intro n
  induction n with
  | zero =>
    intro L hlen _
    have hL : L = [] := List.length_eq_zero.mp (Nat.le_zero.mp hlen)
    subst hL
    rfl
  | succ n ih =>
    intro L hlen hnl
    cases L with
    | nil => rfl
    | cons l ls =>
      have hnll : '\n' ∉ l := hnl l (List.mem_cons_self l ls)
      have hX : '\n' ∉ charRstrip l := fun hm => hnll (mem_charRstrip l '\n' hm)
      by_cases hb : endsBackslashL l
      · cases hd : dropBlanksL ls with
        | nil =>
          rw [fixRec_cons, if_pos hb, hd]
          show fixRec (resplitC '\n' [charRstrip l]) = _
          have h1 : resplitC '\n' [charRstrip l] = [charRstrip l] := by
            simp [resplitC, splitC_noSep '\n' (charRstrip l) hX]
          rw [h1, fixRec_cons]
          rw [if_pos (by rw [endsBackslashL_charRstrip]; exact hb)]
          show [charRstrip (charRstrip l)] = [charRstrip l]
          rw [charRstrip_idem]
        | cons y rest =>
          have hy : y ∈ ls := dropBlanksL_mem ls y (hd ▸ List.mem_cons_self y rest)
          have hnly : '\n' ∉ y := hnl y (List.mem_cons_of_mem l hy)
          have hyb : isBlankL y = false := dropBlanksL_head ls y rest hd
          have hrestlen : rest.length + 1 ≤ ls.length := by
            have h1 := dropBlanksL_length ls
            rw [hd] at h1
            simpa using h1
          have hrestmem : ∀ x ∈ rest, '\n' ∉ x := fun x hx =>
            hnl x (List.mem_cons_of_mem l
              (dropBlanksL_mem ls x (hd ▸ List.mem_cons_of_mem y hx)))
          rw [fixRec_cons, if_pos hb, hd]
          show fixRec (resplitC '\n' ((charRstrip l ++ '\n' :: y) :: fixRec rest)) = _
          have h1 : resplitC '\n' ((charRstrip l ++ '\n' :: y) :: fixRec rest) =
              charRstrip l :: y :: resplitC '\n' (fixRec rest) := by
            simp only [resplitC, List.map_cons, List.flatten_cons]
            rw [splitC_append_sep, splitC_noSep '\n' (charRstrip l) hX,
              splitC_noSep '\n' y hnly]
            rfl
          rw [h1, fixRec_cons]
          rw [if_pos (by rw [endsBackslashL_charRstrip]; exact hb)]
          have h2 : dropBlanksL (y :: resplitC '\n' (fixRec rest)) =
              y :: resplitC '\n' (fixRec rest) := by
            simp [dropBlanksL, hyb]
          rw [h2]
          simp only [List.length_cons] at hlen
          show (charRstrip (charRstrip l) ++ '\n' :: y) ::
              fixRec (resplitC '\n' (fixRec rest)) =
            (charRstrip l ++ '\n' :: y) :: fixRec rest
          rw [charRstrip_idem, ih rest (by omega) hrestmem]
      · rw [fixRec_cons, if_neg hb]
        show fixRec (resplitC '\n' (l :: fixRec ls)) = _
        have h1 : resplitC '\n' (l :: fixRec ls) = l :: resplitC '\n' (fixRec ls) := by
          simp only [resplitC, List.map_cons, List.flatten_cons]
          rw [splitC_noSep '\n' l hnll]
          rfl
        rw [h1, fixRec_cons, if_neg hb]
        simp only [List.length_cons] at hlen
        rw [ih ls (by omega) (fun x hx => hnl x (List.mem_cons_of_mem l hx))]

theorem repairChars_eq_fixRec (s : List Char) :
    repairChars s = joinC '\n' (fixRec (splitC '\n' s)) := by
  simp [repairChars, fixLoop_eq_fixRec]

/-- C4: the line-continuation repair of the materializer is idempotent —
running the scan of windows-agent.py lines 136-154 a second time over its
own output returns that output unchanged, for every input text. -/
theorem repairChars_idem (s : List Char) :
    repairChars (repairChars s) = repairChars s := by
  rw [repairChars_eq_fixRec, repairChars_eq_fixRec]
  rw [splitC_joinC '\n' (fixRec (splitC '\n' s))
    (fixRec_ne_nil (splitC '\n' s) (splitC_ne_nil '\n' s))]
  rw [fixRec_resplit (splitC '\n' s).length (splitC '\n' s) (Nat.le_refl _)
    (mem_splitC_noSep '\n' s)]

theorem findNextNonblank_eq_dropBlanksL (ls : List (List Char)) :
    findNextNonblank ls =
      match dropBlanksL ls with
      | [] => none
      | y :: rest => some (y, rest) := by
  induction ls with
  | nil => rfl
  | cons y ys ih =>
    simp only [findNextNonblank, dropBlanksL]
    by_cases hy : isBlankL y
    · rw [if_pos hy, if_pos hy, ih]
    · rw [if_neg hy, if_neg hy]

theorem endsAnyBackslash_eq_endsBackslashL (l : List Char) :
    endsAnyBackslash l = endsBackslashL l := by
  simp only [endsAnyBackslash, endsBackslashL, charRstrip, List.getLast?_reverse]
  cases h : l.reverse.dropWhile isPySpace with
  | nil => rfl
  | cons c cs =>
    simp only [List.head?_cons]
    by_cases hc : c = '\\'
    · simp [hc]
    · simp [hc]

theorem specFixF_endsAny_eq_fixRecF : ∀ (n : Nat) (ls : List (List Char)),
    specFixF endsAnyBackslash n ls = fixRecF n ls := by
  intro n
  induction n with
  | zero => intro ls; rfl
  | succ n ih =>
    intro ls
    cases ls with
    | nil => rfl
    | cons l ls =>
      simp only [specFixF, fixRecF, endsAnyBackslash_eq_endsBackslashL,
        findNextNonblank_eq_dropBlanksL]
      by_cases hb : endsBackslashL l
      · rw [if_pos hb, if_pos hb]
        cases hd : dropBlanksL ls with
        | nil => rfl
        | cons y rest =>
          show (charRstrip l ++ '\n' :: y) :: specFixF endsAnyBackslash n rest = _
          rw [ih rest]
      · rw [if_neg hb, if_neg hb, ih ls]

/-- C5 (amended): the repair loop treats as continued exactly those lines
whose right-stripped content ends in a backslash character — whether or not
that backslash is itself preceded by further backslashes — emitting the line
right-stripped, skipping following blank lines and appending the next
non-blank line joined by a newline; all other lines are emitted unchanged.
Formally the code loop coincides with the spec-worded scan under the
last-character-is-a-backslash condition on every input. -/
theorem repairChars_eq_specRepair_endsAny (s : List Char) :
    repairChars s = specRepair endsAnyBackslash s := by
  rw [repairChars_eq_fixRec]
  show joinC '\n' (fixRecF (splitC '\n' s).length (splitC '\n' s)) = _
  rw [specRepair, specFix, specFixF_endsAny_eq_fixRecF]

/-- C5 counterexample: a line whose stripped content ends in two backslashes
(an escaped backslash) is claimed to be emitted unchanged, but the code tests
only the final character: on the text `a\\\\ \n \n b` the code merges the
following blank away while the claim-worded scan leaves the text untouched,
and the two outputs differ. -/
theorem repair_single_backslash_counterexample :
    repairChars "a\\\\\n\nb".data = "a\\\\\nb".data ∧
    specRepair endsSingleBackslash "a\\\\\n\nb".data = "a\\\\\n\nb".data ∧
    repairChars "a\\\\\n\nb".data ≠ specRepair endsSingleBackslash "a\\\\\n\nb".data := by
  refine ⟨by decide, by decide, by decide⟩

theorem foldl_append_eq_flatten {α β : Type} (f : α → List β) (L : List α) :
    ∀ acc : List β, L.foldl (fun a x => a ++ f x) acc = acc ++ (L.map f).flatten := by
  induction L with
  | nil => intro acc; simp
  | cons x xs ih =>
    intro acc
    simp only [List.foldl_cons, List.map_cons, List.flatten_cons]
    rw [ih (acc ++ f x)]
    simp

theorem mem_aeadAttemptEvents (aead : List Nat → List Nat → List Nat → Except String (List Nat))
    (key iv ct tag : List Nat) (ev : Event) (h : ev ∈ aeadAttemptEvents aead key iv ct tag) :
    ∃ k i d, ev = .aeadOpen k i d := by
  unfold aeadAttemptEvents at h
  split at h
  · rcases List.mem_singleton.mp h with rfl
    exact ⟨_, _, _, rfl⟩
  · rcases List.mem_cons.mp h with rfl | h2
    · exact ⟨_, _, _, rfl⟩
    · rcases List.mem_singleton.mp h2 with rfl
      exact ⟨_, _, _, rfl⟩

theorem filter_aeadAttemptEvents (aead : List Nat → List Nat → List Nat → Except String (List Nat))
    (key iv ct tag : List Nat) :
    (aeadAttemptEvents aead key iv ct tag).filter isAeadEv =
      aeadAttemptEvents aead key iv ct tag := by
  unfold aeadAttemptEvents
  split <;> rfl

theorem mem_processHelper (env : Env) (key : List Nat) (dir : String) (h : Helper)
    (ev : Event) (hm : ev ∈ processHelper env key dir h) :
    (∃ k i d, ev = .aeadOpen k i d) ∨ (∃ ok, ev = .fileWrite (joinStr dir h.name) ok) := by
  unfold processHelper at hm
  dsimp only at hm
  split at hm
  · exact Or.inl (mem_aeadAttemptEvents _ _ _ _ _ _ hm)
  · split at hm
    all_goals
      rcases List.mem_append.mp hm with h1 | h1
      · exact Or.inl (mem_aeadAttemptEvents _ _ _ _ _ _ h1)
      · rcases List.mem_singleton.mp h1 with rfl
        exact Or.inr ⟨_, rfl⟩

theorem filter_processHelper (env : Env) (key : List Nat) (dir : String) (h : Helper) :
    (processHelper env key dir h).filter isAeadEv =
      aeadAttemptEvents env.aead key h.iv h.encryptedContent h.authTag := by
  unfold processHelper
  dsimp only
  split
  · exact filter_aeadAttemptEvents _ _ _ _ _
  · split
    all_goals
      rw [List.filter_append, filter_aeadAttemptEvents]
      simp [isAeadEv]

theorem mem_mainPhase (env : Env) (e : Envelope) (dir script : String) (ev : Event)
    (hm : ev ∈ (mainPhase env e dir script).2) :
    (∃ ok, ev = .fileWrite (joinStr dir e.scriptName) ok) ∨
      ev = .procRun (ProcKind.pythonScript (joinStr dir e.scriptName) e.arguments dir) 60 := by
  unfold mainPhase at hm
  dsimp only at hm
  split at hm
  · rcases List.mem_singleton.mp hm with rfl
    exact Or.inl ⟨_, rfl⟩
  · split at hm
    · rcases List.mem_cons.mp hm with rfl | h1
      · exact Or.inl ⟨_, rfl⟩
      · rcases List.mem_singleton.mp h1 with rfl
        exact Or.inr rfl
    · split at hm
      all_goals
        first
        | (rcases List.mem_cons.mp hm with rfl | h1
           · exact Or.inl ⟨_, rfl⟩
           · rcases List.mem_singleton.mp h1 with rfl
             exact Or.inr rfl)
        | (split at hm
           all_goals
             rcases List.mem_cons.mp hm with rfl | h1
             · exact Or.inl ⟨_, rfl⟩
             · rcases List.mem_singleton.mp h1 with rfl
               exact Or.inr rfl)

theorem runScriptBody_eq (env : Env) (e : Envelope) (dir script : String) :
    runScriptBody env e dir script =
      ((mainPhase env e dir script).1,
        (e.helperScripts.map (processHelper env e.key dir)).flatten ++
          (mainPhase env e dir script).2) := by
  unfold runScriptBody
  rw [foldl_append_eq_flatten]
  simp

theorem decryptAndExecute_script (env : Env) (e : Envelope) (p : List Nat)
    (hdec : tryDecrypt env.aead e.key e.iv e.encryptedData e.authTag = .ok p)
    (htype : scriptTypeOf e ≠ "powershell") :
    decryptAndExecute env e =
      ((match (runScriptBody env e env.sandboxDir
            ⟨repairChars (normNlChars (env.utf8 p))⟩).1 with
        | .ok r => r
        | .error msg => execFailResp msg),
        aeadAttemptEvents env.aead e.key e.iv e.encryptedData e.authTag ++
          [Event.mkdtemp] ++
          (runScriptBody env e env.sandboxDir
            ⟨repairChars (normNlChars (env.utf8 p))⟩).2 ++
          [Event.rmtree env.rmtreeOk]) := by
  unfold decryptAndExecute
  rw [hdec]
  dsimp only
  rw [if_neg htype]

/-- C2: a request whose Authorization header is missing, does not start with
`Bearer `, or carries a token different from the configured secret is
answered 401 Unauthorized with an empty effect trace: the body is not read
and no envelope step (JSON decode, hex decode, AEAD open, file write,
process spawn) occurs, whatever the body holds; each of the three listed
header conditions falsifies the credential check. -/
theorem auth_gate_rejects_before_any_processing (env : Env) (auth : Option String)
    (body : BodyResult) :
    (authOk auth env.apiKey = false →
      handleEncryptedExecution env auth body = (401, unauthorizedResp, [])) ∧
    (auth = none → authOk auth env.apiKey = false) ∧
    (∀ s, auth = some s → "Bearer ".data.isPrefixOf s.data = false →
      authOk auth env.apiKey = false) ∧
    (∀ s, auth = some s → s.data.drop 7 ≠ env.apiKey.data →
      authOk auth env.apiKey = false) := by
  refine ⟨?_, ?_, ?_, ?_⟩
  · intro h
    unfold handleEncryptedExecution
    rw [h]
    rfl
  · intro h
    subst h
    rfl
  · intro s hs hpre
    subst hs
    simp [authOk, hpre]
  · intro s hs hne
    subst hs
    simp [authOk]
    intro _
    exact hne

theorem auth_gate_rejects_before_any_processing_witness :
    authOk (some "Bearer wrong") testEnv.apiKey = false ∧
    handleEncryptedExecution testEnv (some "Bearer wrong") (.okEnv testEnvelope) =
      (401, unauthorizedResp, []) := by
  refine ⟨by decide, ?_⟩
  exact (auth_gate_rejects_before_any_processing testEnv (some "Bearer wrong")
    (.okEnv testEnvelope)).1 (by decide)

/-- C10: the dispatch is a two-way branch on equality with "powershell": for
any envelope whose type field is not the exact string "powershell" (a missing
field defaults to "python"), the request takes the interpreter/script path —
the sandbox is created, the only process ever spawned is the python
interpreter on the joined main-script path with the sandbox as working
directory under the 60-second timeout — and the inline shell-command path
(30-second timeout) is never taken. -/
theorem script_type_two_way_dispatch (env : Env) (e : Envelope) (p : List Nat)
    (htype : e.typeField ≠ some "powershell")
    (hdec : tryDecrypt env.aead e.key e.iv e.encryptedData e.authTag = .ok p) :
    scriptTypeOf e ≠ "powershell" ∧
    (e.typeField = none → scriptTypeOf e = "python") ∧
    Event.mkdtemp ∈ (decryptAndExecute env e).2 ∧
    (∀ c t, Event.procRun (ProcKind.powershellCmd c) t ∉ (decryptAndExecute env e).2) ∧
    (∀ k t, Event.procRun k t ∈ (decryptAndExecute env e).2 →
      t = 60 ∧
        k = ProcKind.pythonScript (joinStr env.sandboxDir e.scriptName)
          e.arguments env.sandboxDir) := by
  have hst : scriptTypeOf e ≠ "powershell" := by
    unfold scriptTypeOf
    cases h : e.typeField with
    | none => decide
    | some t =>
      intro he
      exact htype (by rw [h, show t = "powershell" from he])
  have htr := decryptAndExecute_script env e p hdec hst
  refine ⟨hst, ?_, ?_, ?_, ?_⟩
  · intro h
    unfold scriptTypeOf
    rw [h]
    rfl
  · rw [htr]
    simp
  · intro c t hmem
    rw [htr] at hmem
    simp only [List.append_assoc, List.mem_append, List.mem_singleton] at hmem
    rcases hmem with h1 | h1 | h1 | h1
    · rcases mem_aeadAttemptEvents _ _ _ _ _ _ h1 with ⟨k, i, d, he⟩
      exact Event.noConfusion he
    · exact Event.noConfusion h1
    · rw [runScriptBody_eq] at h1
      rcases List.mem_append.mp h1 with h2 | h2
      · rcases List.mem_flatten.mp h2 with ⟨l, hl, h3⟩
        rcases List.mem_map.mp hl with ⟨hh, _, rfl⟩
        rcases mem_processHelper _ _ _ _ _ h3 with ⟨k, i, d, he⟩ | ⟨ok, he⟩
        · exact Event.noConfusion he
        · exact Event.noConfusion he
      · rcases mem_mainPhase _ _ _ _ _ h2 with ⟨ok, he⟩ | he
        · exact Event.noConfusion he
        · rcases Event.procRun.inj he with ⟨hk, _⟩
          exact ProcKind.noConfusion hk
    · exact Event.noConfusion h1
  · intro k t hmem
    rw [htr] at hmem
    simp only [List.append_assoc, List.mem_append, List.mem_singleton] at hmem
    rcases hmem with h1 | h1 | h1 | h1
    · rcases mem_aeadAttemptEvents _ _ _ _ _ _ h1 with ⟨k2, i, d, he⟩
      exact Event.noConfusion he
    · exact Event.noConfusion h1
    · rw [runScriptBody_eq] at h1
      rcases List.mem_append.mp h1 with h2 | h2
      · rcases List.mem_flatten.mp h2 with ⟨l, hl, h3⟩
        rcases List.mem_map.mp hl with ⟨hh, _, rfl⟩
        rcases mem_processHelper _ _ _ _ _ h3 with ⟨k2, i, d, he⟩ | ⟨ok, he⟩
        · exact Event.noConfusion he
        · exact Event.noConfusion he
      · rcases mem_mainPhase _ _ _ _ _ h2 with ⟨ok, he⟩ | he
        · exact Event.noConfusion he
        · rcases Event.procRun.inj he with ⟨hk, ht⟩
          exact ⟨ht, hk⟩
    · exact Event.noConfusion h1

theorem script_type_two_way_dispatch_witness :
    testEnvelope.typeField ≠ some "powershell" ∧
    tryDecrypt testEnv.aead testEnvelope.key testEnvelope.iv
      testEnvelope.encryptedData testEnvelope.authTag = .ok [10, 2] ∧
    Event.mkdtemp ∈ (decryptAndExecute testEnv testEnvelope).2 := by
  refine ⟨by decide, by rfl, ?_⟩
  exact (script_type_two_way_dispatch testEnv testEnvelope [10, 2]
    (by decide) (by rfl)).2.2.1

/-- C1: on every request that takes the script path far enough to create the
sandbox (main decrypt succeeded, type is not "powershell"), the effect trace
ends with exactly one recursive removal of the sandbox directory — after its
creation and after whatever helper writes, main write, execution, parse or
enrichment happened, on success, non-zero exit, JSON fallback, timeout or
exception alike — and the outcome of that removal (the `rmtreeOk` bit) never
changes the response: a cleanup failure is swallowed, not re-thrown. -/
theorem sandbox_cleanup_on_every_exit_path (env : Env) (e : Envelope) (p : List Nat)
    (hdec : tryDecrypt env.aead e.key e.iv e.encryptedData e.authTag = .ok p)
    (htype : scriptTypeOf e ≠ "powershell") :
    (∃ pre, (decryptAndExecute env e).2 = pre ++ [Event.rmtree env.rmtreeOk] ∧
      Event.mkdtemp ∈ pre ∧ pre.countP isRmtreeEv = 0) ∧
    (∀ b : Bool, (decryptAndExecute {env with rmtreeOk := b} e).1 =
      (decryptAndExecute env e).1) := by
  have htr := decryptAndExecute_script env e p hdec htype
  constructor
  · refine ⟨aeadAttemptEvents env.aead e.key e.iv e.encryptedData e.authTag ++
      [Event.mkdtemp] ++ (runScriptBody env e env.sandboxDir
        ⟨repairChars (normNlChars (env.utf8 p))⟩).2, ?_, ?_, ?_⟩
    · rw [htr]
    · simp
    · rw [List.countP_eq_zero]
      intro ev hmem
      simp only [List.append_assoc, List.mem_append, List.mem_singleton] at hmem
      rcases hmem with h1 | h1 | h1
      · rcases mem_aeadAttemptEvents _ _ _ _ _ _ h1 with ⟨k, i, d, rfl⟩
        simp [isRmtreeEv]
      · subst h1
        simp [isRmtreeEv]
      · rw [runScriptBody_eq] at h1
        rcases List.mem_append.mp h1 with h2 | h2
        · rcases List.mem_flatten.mp h2 with ⟨l, hl, h3⟩
          rcases List.mem_map.mp hl with ⟨hh, _, rfl⟩
          rcases mem_processHelper _ _ _ _ _ h3 with ⟨k, i, d, rfl⟩ | ⟨ok, rfl⟩
          · simp [isRmtreeEv]
          · simp [isRmtreeEv]
        · rcases mem_mainPhase _ _ _ _ _ h2 with ⟨ok, rfl⟩ | rfl
          · simp [isRmtreeEv]
          · simp [isRmtreeEv]
  · intro b
    have hdec' : tryDecrypt ({env with rmtreeOk := b} : Env).aead e.key e.iv
        e.encryptedData e.authTag = .ok p := hdec
    have htr' := decryptAndExecute_script {env with rmtreeOk := b} e p hdec' htype
    rw [htr, htr']
    rfl

theorem sandbox_cleanup_on_every_exit_path_witness :
    tryDecrypt testEnv.aead testEnvelope.key testEnvelope.iv
      testEnvelope.encryptedData testEnvelope.authTag = .ok [10, 2] ∧
    scriptTypeOf testEnvelope ≠ "powershell" ∧
    (decryptAndExecute {testEnv with rmtreeOk := false} testEnvelope).1 =
      (decryptAndExecute testEnv testEnvelope).1 := by
  refine ⟨by rfl, by decide, ?_⟩
  exact (sandbox_cleanup_on_every_exit_path testEnv testEnvelope [10, 2]
    (by rfl) (by decide)).2 false

theorem filter_helper_flatten (env : Env) (key : List Nat) (dir : String) :
    ∀ L : List Helper,
      ((L.map (processHelper env key dir)).flatten).filter isAeadEv =
        (L.map (fun h =>
          aeadAttemptEvents env.aead key h.iv h.encryptedContent h.authTag)).flatten := by
  intro L
  induction L with
  | nil => rfl
  | cons h hs ih =>
    simp only [List.map_cons, List.flatten_cons, List.filter_append]
    rw [filter_processHelper, ih]

theorem filter_mainPhase (env : Env) (e : Envelope) (dir script : String) :
    (mainPhase env e dir script).2.filter isAeadEv = [] := by
  unfold mainPhase
  dsimp only
  split
  · rfl
  · split
    · rfl
    · split
      · rfl
      · split <;> rfl

/-- C3: the AEAD open is attempted first on cipherText++tag and, only when
that raises, retried on cipherText alone, the first failure being discarded;
when both attempts fail the operation carries the second underlying error.
In the script branch the very same two-attempt procedure is what produces
every AEAD call of the request: once for the main blob and once per helper in
order, always with the envelope's single key and the object's own iv/tag. -/
theorem dual_layout_decrypt (env : Env) (e : Envelope) (p : List Nat)
    (hdec : tryDecrypt env.aead e.key e.iv e.encryptedData e.authTag = .ok p)
    (htype : scriptTypeOf e ≠ "powershell") :
    (∀ (aead : List Nat → List Nat → List Nat → Except String (List Nat))
      (key iv ct tag q : List Nat), aead key iv (ct ++ tag) = .ok q →
        tryDecrypt aead key iv ct tag = .ok q) ∧
    (∀ (aead : List Nat → List Nat → List Nat → Except String (List Nat))
      (key iv ct tag : List Nat) (msg : String), aead key iv (ct ++ tag) = .error msg →
        tryDecrypt aead key iv ct tag = aead key iv ct) ∧
    (∀ (aead : List Nat → List Nat → List Nat → Except String (List Nat))
      (key iv ct tag : List Nat) (msg1 msg2 : String),
        aead key iv (ct ++ tag) = .error msg1 → aead key iv ct = .error msg2 →
        tryDecrypt aead key iv ct tag = .error msg2) ∧
    (decryptAndExecute env e).2.filter isAeadEv =
      aeadAttemptEvents env.aead e.key e.iv e.encryptedData e.authTag ++
        (e.helperScripts.map (fun h =>
          aeadAttemptEvents env.aead e.key h.iv h.encryptedContent h.authTag)).flatten := by
  refine ⟨?_, ?_, ?_, ?_⟩
  · intro aead key iv ct tag q h
    unfold tryDecrypt
    rw [h]
  · intro aead key iv ct tag msg h
    unfold tryDecrypt
    rw [h]
  · intro aead key iv ct tag msg1 msg2 h1 h2
    unfold tryDecrypt
    rw [h1, h2]
  · rw [decryptAndExecute_script env e p hdec htype, runScriptBody_eq]
    simp only [List.append_assoc, List.filter_append, filter_aeadAttemptEvents,
      filter_helper_flatten, filter_mainPhase]
    simp [isAeadEv]

theorem dual_layout_decrypt_witness :
    tryDecrypt testEnv.aead testEnvelope.key testEnvelope.iv
      testEnvelope.encryptedData testEnvelope.authTag = .ok [10, 2] ∧
    scriptTypeOf testEnvelope ≠ "powershell" ∧
    (decryptAndExecute testEnv testEnvelope).2.filter isAeadEv =
      aeadAttemptEvents testEnv.aead testEnvelope.key testEnvelope.iv
        testEnvelope.encryptedData testEnvelope.authTag ++
        (testEnvelope.helperScripts.map (fun h =>
          aeadAttemptEvents testEnv.aead testEnvelope.key h.iv
            h.encryptedContent h.authTag)).flatten := by
  refine ⟨by rfl, by decide, ?_⟩
  exact (dual_layout_decrypt testEnv testEnvelope [10, 2] (by rfl) (by decide)).2.2.2

/-- C6: helper materialization is a partial-failure policy, not fail-fast:
the response of the script branch is byte-for-byte the response the same
envelope yields with no helpers at all (so no helper outcome, failed or not,
can influence it); every helper whose own decrypt and write succeed is
materialized whatever happened to the others; and the main script write and
its execution happen regardless of helper failures — only the main write's
own failure aborts the request. -/
theorem helper_partial_failure_policy (env : Env) (e : Envelope) (p : List Nat)
    (hdec : tryDecrypt env.aead e.key e.iv e.encryptedData e.authTag = .ok p)
    (htype : scriptTypeOf e ≠ "powershell") :
    ((decryptAndExecute env e).1 =
      (decryptAndExecute env {e with helperScripts := []}).1) ∧
    (∀ h ∈ e.helperScripts, ∀ q : List Nat,
      tryDecrypt env.aead e.key h.iv h.encryptedContent h.authTag = .ok q →
      env.write (joinStr env.sandboxDir h.name) ⟨normNlChars (env.utf8 q)⟩ = .ok () →
      Event.fileWrite (joinStr env.sandboxDir h.name) true ∈
        (decryptAndExecute env e).2) ∧
    (∀ u : Unit,
      env.write (joinStr env.sandboxDir e.scriptName)
          ⟨repairChars (normNlChars (env.utf8 p))⟩ = .ok u →
      Event.fileWrite (joinStr env.sandboxDir e.scriptName) true ∈
          (decryptAndExecute env e).2 ∧
        Event.procRun (ProcKind.pythonScript (joinStr env.sandboxDir e.scriptName)
          e.arguments env.sandboxDir) 60 ∈ (decryptAndExecute env e).2) ∧
    (∀ msg : String,
      env.write (joinStr env.sandboxDir e.scriptName)
          ⟨repairChars (normNlChars (env.utf8 p))⟩ = .error msg →
      (decryptAndExecute env e).1 = execFailResp msg) := by
  have htr := decryptAndExecute_script env e p hdec htype
  have hdec' : tryDecrypt env.aead
      ({e with helperScripts := []} : Envelope).key
      ({e with helperScripts := []} : Envelope).iv
      ({e with helperScripts := []} : Envelope).encryptedData
      ({e with helperScripts := []} : Envelope).authTag = .ok p := hdec
  have htype' : scriptTypeOf {e with helperScripts := []} ≠ "powershell" := htype
  have htr' := decryptAndExecute_script env {e with helperScripts := []} p hdec' htype'
  refine ⟨?_, ?_, ?_, ?_⟩
  · rw [htr, htr']
    rfl
  · intro h hmem q hq hw
    have hin : Event.fileWrite (joinStr env.sandboxDir h.name) true ∈
        processHelper env e.key env.sandboxDir h := by
      unfold processHelper
      rw [hq]
      dsimp only
      rw [hw]
      simp
    have hin2 : Event.fileWrite (joinStr env.sandboxDir h.name) true ∈
        ((e.helperScripts.map (processHelper env e.key env.sandboxDir)).flatten) :=
      List.mem_flatten.mpr ⟨processHelper env e.key env.sandboxDir h,
        List.mem_map_of_mem _ hmem, hin⟩
    rw [htr]
    dsimp only
    rw [runScriptBody_eq]
    dsimp only
    simp only [List.append_assoc, List.mem_append]
    exact Or.inr (Or.inr (Or.inl hin2))
  · intro u hw
    have hin : Event.fileWrite (joinStr env.sandboxDir e.scriptName) true ∈
          (mainPhase env e env.sandboxDir
            ⟨repairChars (normNlChars (env.utf8 p))⟩).2 ∧
        Event.procRun (ProcKind.pythonScript (joinStr env.sandboxDir e.scriptName)
            e.arguments env.sandboxDir) 60 ∈
          (mainPhase env e env.sandboxDir
            ⟨repairChars (normNlChars (env.utf8 p))⟩).2 := by
      unfold mainPhase
      dsimp only
      rw [hw]
      dsimp only
      cases env.exec (ProcKind.pythonScript (joinStr env.sandboxDir e.scriptName)
          e.arguments env.sandboxDir) with
      | timeout msg =>
        dsimp only
        exact ⟨by simp, by simp⟩
      | done rc out err =>
        dsimp only
        by_cases hrc : (rc != 0) = true
        · rw [if_pos hrc]
          exact ⟨by simp, by simp⟩
        · rw [if_neg hrc]
          cases env.parseJson out with
          | notJson => exact ⟨by simp, by simp⟩
          | nonObj msg => exact ⟨by simp, by simp⟩
          | objVal o => exact ⟨by simp, by simp⟩
    rw [htr]
    dsimp only
    rw [runScriptBody_eq]
    dsimp only
    constructor
    · simp only [List.append_assoc, List.mem_append]
      exact Or.inr (Or.inr (Or.inr (Or.inl hin.1)))
    · simp only [List.append_assoc, List.mem_append]
      exact Or.inr (Or.inr (Or.inr (Or.inl hin.2)))
  · intro msg hw
    have hmp : (mainPhase env e env.sandboxDir
        ⟨repairChars (normNlChars (env.utf8 p))⟩).1 = .error msg := by
      unfold mainPhase
      dsimp only
      rw [hw]
    rw [htr]
    dsimp only
    rw [runScriptBody_eq]
    dsimp only
    rw [hmp]

theorem helper_partial_failure_policy_witness :
    tryDecrypt testEnv.aead testEnvelope.key testEnvelope.iv
      testEnvelope.encryptedData testEnvelope.authTag = .ok [10, 2] ∧
    scriptTypeOf testEnvelope ≠ "powershell" ∧
    (decryptAndExecute testEnv testEnvelope).1 =
      (decryptAndExecute testEnv {testEnvelope with helperScripts := []}).1 := by
  refine ⟨by rfl, by decide, ?_⟩
  exact (helper_partial_failure_policy testEnv testEnvelope [10, 2]
    (by rfl) (by decide)).1

/-- C8 counterexample: the claim says a timeout, like a non-zero exit, yields
a Failure carrying stderr and the captured stdout; but on a timeout the code
raises out of `subprocess.run` before any output is captured, the outer
handler wraps the exception message, and the response has no `output` field
at all — its error is the generic `Decryption/execution failed:` wrapper,
not stderr. -/
theorem timeout_response_counterexample :
    (decryptAndExecute timeoutEnv testEnvelope).1 =
      [("success", JValue.bool false),
       ("error", JValue.str "Decryption/execution failed: Command timed out after 60 seconds")] ∧
    dictGet "output" (decryptAndExecute timeoutEnv testEnvelope).1 = none := by
  exact ⟨by rfl, by rfl⟩

/-- C8 (amended): a script completing with a non-zero exit status yields the
Failure object carrying the stripped stderr (or the generic message when
stderr is empty) together with the stripped captured stdout; a timeout
instead propagates as an exception which the outer handler converts to the
`Decryption/execution failed:` failure, with no output field. -/
theorem failure_normalization (env : Env) (e : Envelope) (p : List Nat)
    (hdec : tryDecrypt env.aead e.key e.iv e.encryptedData e.authTag = .ok p)
    (htype : scriptTypeOf e ≠ "powershell")
    (hw : env.write (joinStr env.sandboxDir e.scriptName)
      ⟨repairChars (normNlChars (env.utf8 p))⟩ = .ok ()) :
    (∀ (rc : Int) (out err : String),
      env.exec (ProcKind.pythonScript (joinStr env.sandboxDir e.scriptName)
        e.arguments env.sandboxDir) = .done rc out err → rc ≠ 0 →
      (decryptAndExecute env e).1 =
        [("success", JValue.bool false),
         ("error", JValue.str (if err != "" then pyStrip err else "Script execution failed")),
         ("output", JValue.str (pyStrip out))]) ∧
    (∀ msg : String,
      env.exec (ProcKind.pythonScript (joinStr env.sandboxDir e.scriptName)
        e.arguments env.sandboxDir) = .timeout msg →
      (decryptAndExecute env e).1 = execFailResp msg ∧
        dictGet "output" (execFailResp msg) = none) := by
  have htr := decryptAndExecute_script env e p hdec htype
  constructor
  · intro rc out err hexec hrc
    have hmp : (mainPhase env e env.sandboxDir
        ⟨repairChars (normNlChars (env.utf8 p))⟩).1 =
        .ok [("success", JValue.bool false),
             ("error", JValue.str (if err != "" then pyStrip err else "Script execution failed")),
             ("output", JValue.str (pyStrip out))] := by
      unfold mainPhase
      dsimp only
      rw [hw]
      dsimp only
      rw [hexec]
      dsimp only
      rw [if_pos (bne_iff_ne.mpr hrc)]
    rw [htr]
    dsimp only
    rw [runScriptBody_eq]
    dsimp only
    rw [hmp]
  · intro msg hexec
    have hmp : (mainPhase env e env.sandboxDir
        ⟨repairChars (normNlChars (env.utf8 p))⟩).1 = .error msg := by
      unfold mainPhase
      dsimp only
      rw [hw]
      dsimp only
      rw [hexec]
    refine ⟨?_, rfl⟩
    rw [htr]
    dsimp only
    rw [runScriptBody_eq]
    dsimp only
    rw [hmp]

theorem failure_normalization_witness :
    tryDecrypt boomEnv.aead testEnvelope.key testEnvelope.iv
      testEnvelope.encryptedData testEnvelope.authTag = .ok [10, 2] ∧
    scriptTypeOf testEnvelope ≠ "powershell" ∧
    boomEnv.write (joinStr boomEnv.sandboxDir testEnvelope.scriptName)
      ⟨repairChars (normNlChars (boomEnv.utf8 [10, 2]))⟩ = .ok () ∧
    (decryptAndExecute boomEnv testEnvelope).1 =
      [("success", JValue.bool false), ("error", JValue.str "boom"),
       ("output", JValue.str "partial out")] := by
  refine ⟨by rfl, by decide, by rfl, ?_⟩
  rw [(failure_normalization boomEnv testEnvelope [10, 2] (by rfl) (by decide)
    (by rfl)).1 1 "partial out" "boom" (by rfl) (by decide)]
  rfl

theorem dictGet_dictInsert_self (k : String) (v : JValue) (o : Obj) :
    dictGet k (dictInsert k v o) = some v := by
  induction o with
  | nil => simp [dictInsert, dictGet]
  | cons kv rest ih =>
    obtain ⟨k', v'⟩ := kv
    simp only [dictInsert]
    by_cases hk : k' == k
    · rw [if_pos hk]
      simp [dictGet, hk]
    · rw [if_neg hk]
      simp only [dictGet, hk]
      exact ih

theorem dictGet_dictInsert_ne (k k2 : String) (v : JValue) (o : Obj) (h : k2 ≠ k) :
    dictGet k2 (dictInsert k v o) = dictGet k2 o := by
  induction o with
  | nil =>
    simp only [dictInsert, dictGet]
    rw [if_neg (by simpa using fun he => h he.symm)]
  | cons kv rest ih =>
    obtain ⟨k', v'⟩ := kv
    simp only [dictInsert]
    by_cases hk : k' == k
    · rw [if_pos hk]
      simp only [dictGet]
      by_cases h2 : k' == k2
      · exact absurd (by rw [← eq_of_beq hk, ← eq_of_beq h2]) h
      · rw [if_neg h2, if_neg h2]
    · rw [if_neg hk]
      simp only [dictGet]
      by_cases h2 : k' == k2
      · rw [if_pos h2, if_pos h2]
      · rw [if_neg h2, if_neg h2]
        exact ih

theorem dictGet_none_of_not_mem (k : String) (o : Obj)
    (h : k ∉ o.map Prod.fst) : dictGet k o = none := by
  induction o with
  | nil => rfl
  | cons kv rest ih =>
    obtain ⟨k', v'⟩ := kv
    simp only [List.map_cons, List.mem_cons] at h
    push_neg at h
    simp only [dictGet]
    rw [if_neg (by simpa using fun he => h.1 (eq_of_beq he).symm)]
    exact ih h.2

theorem keys_dictInsert (k : String) (v : JValue) (o : Obj) :
    (dictInsert k v o).map Prod.fst =
      if k ∈ o.map Prod.fst then o.map Prod.fst else o.map Prod.fst ++ [k] := by
  induction o with
  | nil => simp [dictInsert]
  | cons kv rest ih =>
    obtain ⟨k', v'⟩ := kv
    simp only [dictInsert]
    by_cases hk : k' == k
    · rw [if_pos hk]
      rw [if_pos (by simp [eq_of_beq hk])]
      simp
    · rw [if_neg hk]
      have hne : ¬ k = k' := fun he => by
        rw [he] at hk
        simp at hk
      simp only [List.map_cons, List.mem_cons]
      by_cases hmem : k ∈ rest.map Prod.fst
      · rw [if_pos (Or.inr hmem)]
        rw [ih, if_pos hmem]
      · rw [if_neg (by
          intro hor
          rcases hor with h1 | h1
          · exact hne h1
          · exact hmem h1)]
        rw [ih, if_neg hmem]
        simp

theorem nodup_keys_dictInsert (k : String) (v : JValue) (o : Obj)
    (h : (o.map Prod.fst).Nodup) : ((dictInsert k v o).map Prod.fst).Nodup := by
  rw [keys_dictInsert]
  by_cases hmem : k ∈ o.map Prod.fst
  · rw [if_pos hmem]
    exact h
  · rw [if_neg hmem]
    simp [List.nodup_append, h, hmem]

theorem dictGet_dictMerge (a b : Obj) (hnd : (b.map Prod.fst).Nodup) (k : String) :
    dictGet k (dictMerge a b) =
      match dictGet k b with
      | some v => some v
      | none => dictGet k a := by
  induction b generalizing a with
  | nil => simp [dictMerge, dictGet]
  | cons kv rest ih =>
    obtain ⟨kb, vb⟩ := kv
    simp only [List.map_cons, List.nodup_cons] at hnd
    have hmerge : dictMerge a (⟨kb, vb⟩ :: rest) = dictMerge (dictInsert kb vb a) rest := rfl
    rw [hmerge, ih (dictInsert kb vb a) hnd.2]
    simp only [dictGet]
    by_cases hk : kb == k
    · rw [if_pos hk]
      have : dictGet k rest = none :=
        dictGet_none_of_not_mem k rest (by
          rw [← eq_of_beq hk]
          exact hnd.1)
      rw [this]
      rw [eq_of_beq hk]
      rw [dictGet_dictInsert_self]
    · rw [if_neg hk]
      have : dictGet k (dictInsert kb vb a) = dictGet k a :=
        dictGet_dictInsert_ne kb k vb a (fun he => by
          rw [he] at hk
          simp at hk)
      rw [this]

/-- C7 counterexample: the claim says an object whose `success` is falsy (in
particular absent) is returned unmodified, and that enrichment adds a field
without overwriting any existing one. But `{'success': True, **obj}` adds a
`success: true` binding to an object that lacked one, and the enrichment
assignment replaces an already-present `screenshot` field in place, adding
no field at all. -/
theorem enrichment_counterexample :
    normalizeStructured shotEnv [("path", JValue.str "shot.png")] =
      [("success", JValue.bool true), ("path", JValue.str "shot.png")] ∧
    normalizeStructured shotEnv [("path", JValue.str "shot.png")] ≠
      [("path", JValue.str "shot.png")] ∧
    dictGet "screenshot" (normalizeStructured shotEnv
      [("success", JValue.bool true), ("path", JValue.str "shot.png"),
       ("screenshot", JValue.str "old")]) = some (JValue.str "NEWB64") ∧
    dictGet "screenshot" (normalizeStructured shotEnv
      [("success", JValue.bool true), ("path", JValue.str "shot.png"),
       ("screenshot", JValue.str "old")]) ≠ some (JValue.str "old") ∧
    (normalizeStructured shotEnv
      [("success", JValue.bool true), ("path", JValue.str "shot.png"),
       ("screenshot", JValue.str "old")]).length = 3 := by
  refine ⟨by rfl, ?_, by rfl, ?_, by rfl⟩
  · intro h
    exact absurd (congrArg List.length h) (by decide)
  · intro h
    rw [show dictGet "screenshot" (normalizeStructured shotEnv
      [("success", JValue.bool true), ("path", JValue.str "shot.png"),
       ("screenshot", JValue.str "old")]) = some (JValue.str "NEWB64") from rfl] at h
    injection h with h1
    injection h1 with h2
    exact absurd h2 (by decide)

/-- C7 (amended): for a parsed stdout object with a truthy `success` and a
`path` naming an existing, loadable file, the returned object is the
original with an encoded-image binding under `screenshot` — overwriting a
pre-existing `screenshot` binding but no other field, every other lookup
unchanged. When the gate fails or enrichment returns nothing, the object is
returned with every lookup unchanged, except that a missing `success` field
is filled in as `true` by the `{'success': True, **obj}` wrapper; an
enrichment failure therefore never escalates to a request failure. -/
theorem enrichment_frame (env : Env) (o : Obj) (hnd : (o.map Prod.fst).Nodup) :
    (∀ p b64, truthy (dictGet "success" o) = true →
      dictGet "path" o = some (JValue.str p) → p ≠ "" →
      env.fileExists p = true → env.imgEncode p = some b64 →
      dictGet "screenshot" (normalizeStructured env o) = some (JValue.str b64) ∧
      ∀ k, k ≠ "screenshot" → dictGet k (normalizeStructured env o) = dictGet k o) ∧
    ((truthy (dictGet "success" o) && hasKey "path" o) = false ∨
        addBase64Screenshot env o = none →
      (hasKey "success" o = true →
        ∀ k, dictGet k (normalizeStructured env o) = dictGet k o) ∧
      (hasKey "success" o = false →
        dictGet "success" (normalizeStructured env o) = some (JValue.bool true) ∧
        ∀ k, k ≠ "success" →
          dictGet k (normalizeStructured env o) = dictGet k o)) := by
  constructor
  · intro p b64 hsucc hpath hp hex henc
    have hgate : (truthy (dictGet "success" o) && hasKey "path" o) = true := by
      rw [hsucc]
      simp [hasKey, hpath]
    have henh : addBase64Screenshot env o =
        some (dictInsert "screenshot" (JValue.str b64) o) := by
      unfold addBase64Screenshot
      rw [hpath]
      dsimp only
      rw [if_pos (by simp [truthy, bne_iff_ne.mpr hp]), hex, henc]
      rfl
    have hres : normalizeStructured env o =
        dictMerge [("success", JValue.bool true)]
          (dictInsert "screenshot" (JValue.str b64) o) := by
      unfold normalizeStructured
      dsimp only
      rw [hgate, henh]
      rfl
    have hnd2 : ((dictInsert "screenshot" (JValue.str b64) o).map Prod.fst).Nodup :=
      nodup_keys_dictInsert _ _ _ hnd
    constructor
    · rw [hres, dictGet_dictMerge _ _ hnd2, dictGet_dictInsert_self]
    · intro k hk
      rw [hres, dictGet_dictMerge _ _ hnd2,
        dictGet_dictInsert_ne "screenshot" k (JValue.str b64) o hk]
      cases hko : dictGet k o with
      | some v => rfl
      | none =>
        by_cases hks : k = "success"
        · subst hks
          rw [hko] at hsucc
          exact absurd hsucc (by simp [truthy])
        · simp only [dictGet]
          rw [if_neg (by simpa using fun he => hks (eq_of_beq he).symm)]
  · intro hfail
    have ho2 : normalizeStructured env o =
        dictMerge [("success", JValue.bool true)] o := by
      unfold normalizeStructured
      dsimp only
      by_cases hgate : (truthy (dictGet "success" o) && hasKey "path" o) = true
      · rcases hfail with h1 | h1
        · rw [hgate] at h1
          exact absurd h1 (by simp)
        · rw [hgate, h1]
          rfl
      · rw [Bool.not_eq_true] at hgate
        rw [hgate]
        rfl
    constructor
    · intro hks k
      rw [ho2, dictGet_dictMerge _ _ hnd]
      cases hko : dictGet k o with
      | some v => rfl
      | none =>
        by_cases hkeq : k = "success"
        · subst hkeq
          unfold hasKey at hks
          rw [hko] at hks
          simp at hks
        · simp only [dictGet]
          rw [if_neg (by simpa using fun he => hkeq (eq_of_beq he).symm)]
    · intro hks
      constructor
      · rw [ho2, dictGet_dictMerge _ _ hnd]
        have hnone : dictGet "success" o = none := by
          unfold hasKey at hks
          cases h : dictGet "success" o with
          | none => rfl
          | some v =>
            rw [h] at hks
            simp at hks
        rw [hnone]
        rfl
      · intro k hk
        rw [ho2, dictGet_dictMerge _ _ hnd]
        cases hko : dictGet k o with
        | some v => rfl
        | none =>
          simp only [dictGet]
          rw [if_neg (by simpa using fun he => hk (eq_of_beq he).symm)]

theorem enrichment_frame_witness :
    (([("success", JValue.bool true), ("path", JValue.str "shot.png")] : Obj).map
      Prod.fst).Nodup ∧
    truthy (dictGet "success"
      [("success", JValue.bool true), ("path", JValue.str "shot.png")]) = true ∧
    shotEnv.fileExists "shot.png" = true ∧
    shotEnv.imgEncode "shot.png" = some "NEWB64" ∧
    dictGet "screenshot" (normalizeStructured shotEnv
      [("success", JValue.bool true), ("path", JValue.str "shot.png")]) =
      some (JValue.str "NEWB64") := by
  refine ⟨by decide, by rfl, by rfl, by rfl, ?_⟩
  exact ((enrichment_frame shotEnv
    [("success", JValue.bool true), ("path", JValue.str "shot.png")] (by decide)).1
    "shot.png" "NEWB64" (by rfl) (by rfl) (by decide) (by rfl) (by rfl)).1

theorem flatten_splitC_plain (sep : Char) (cs : List (List Char))
    (h : ∀ c ∈ cs, sep ∉ c) : (cs.map (splitC sep)).flatten = cs := by
  induction cs with
  | nil => rfl
  | cons c rest ih =>
    simp only [List.map_cons, List.flatten_cons]
    rw [splitC_noSep sep c (h c (List.mem_cons_self c rest)),
      ih (fun x hx => h x (List.mem_cons_of_mem c hx))]
    rfl

theorem normComps_eq_foldl (cs : List (List Char)) :
    normComps cs = cs.foldl normStep [] := rfl

theorem foldl_normStep_plain (cs : List (List Char)) (h : ∀ c ∈ cs, plainComp c) :
    ∀ acc, cs.foldl normStep acc = acc ++ cs := by
  induction cs with
  | nil => intro acc; simp
  | cons c rest ih =>
    intro acc
    obtain ⟨h1, h2, h3, _⟩ := h c (List.mem_cons_self c rest)
    simp only [List.foldl_cons]
    have hstep : normStep acc c = acc ++ [c] := by
      unfold normStep
      rw [if_neg (by simp [h1, h2]), if_neg h3]
    rw [hstep, ih (fun x hx => h x (List.mem_cons_of_mem c hx))]
    simp

theorem splitC_joinC_slash (cs : List (List Char)) (hne : cs ≠ [])
    (h : ∀ c ∈ cs, '/' ∉ c) : splitC '/' (joinC '/' cs) = cs := by
  rw [splitC_joinC '/' cs hne]
  exact flatten_splitC_plain '/' cs h

/-- C9 counterexample: the claim asserts every helper name containing a
parent-directory component lands outside the sandbox and survives cleanup;
but a name such as `a/../b` contains `..` yet resolves back inside the
sandbox, where the recursive removal does reach it. -/
theorem helper_path_escape_counterexample :
    (['.', '.'] ∈ splitC '/' "a/../b".data) ∧
    removedByCleanup "/tmp/mcp_script_ab".data
      (joinPathChars "/tmp/mcp_script_ab".data "a/../b".data) = true := by
  exact ⟨by decide, by decide⟩

/-- C9 (amended): a helper file's target is exactly the sandbox joined with
the helper's name used verbatim — no sanitization or containment check — so
an absolute name discards the sandbox entirely, and a name whose leading
`..` climbs out of the sandbox (and does not re-enter it) resolves outside
the sandbox tree and is not removed by the sandbox cleanup; only names whose
parent components stay balanced resolve inside. -/
theorem helper_path_no_containment (env : Env) (key : List Nat) (dir : String)
    (hh : Helper) :
    (∀ q : List Nat,
      tryDecrypt env.aead key hh.iv hh.encryptedContent hh.authTag = .ok q →
      processHelper env key dir hh =
        aeadAttemptEvents env.aead key hh.iv hh.encryptedContent hh.authTag ++
          [Event.fileWrite (joinStr dir hh.name)
            (match env.write (joinStr dir hh.name) ⟨normNlChars (env.utf8 q)⟩ with
             | .ok _ => true
             | .error _ => false)]) ∧
    (∀ d n : List Char, isAbs n = true → joinPathChars d n = n) ∧
    (∀ (cs : List (List Char)) (x : List Char),
      cs ≠ [] → (∀ c ∈ cs, plainComp c) → plainComp x →
      cs.getLast? ≠ some x →
      removedByCleanup ('/' :: joinC '/' cs)
        (joinPathChars ('/' :: joinC '/' cs) ('.' :: '.' :: '/' :: x)) = false) := by
  refine ⟨?_, ?_, ?_⟩
  · intro q hq
    unfold processHelper
    rw [hq]
    dsimp only
    cases hw : env.write (joinStr dir hh.name) ⟨normNlChars (env.utf8 q)⟩ with
    | ok u => rfl
    | error msg => rfl
  · intro d n habs
    unfold joinPathChars
    rw [if_pos habs]
  · intro cs x hne hplain hx hlast
    have hslash : ∀ c ∈ cs, '/' ∉ c := fun c hc => (hplain c hc).2.2.2
    have hdir : resolveComps ('/' :: joinC '/' cs) = cs := by
      unfold resolveComps
      show normComps (splitC '/' ('/' :: joinC '/' cs)) = cs
      have : splitC '/' ('/' :: joinC '/' cs) = [] :: splitC '/' (joinC '/' cs) := by
        simp [splitC]
      rw [this, splitC_joinC_slash cs hne hslash]
      rw [normComps_eq_foldl]
      simp only [List.foldl_cons]
      have hstep : normStep [] [] = [] := by
        unfold normStep
        rw [if_pos (Or.inl rfl)]
      rw [hstep, foldl_normStep_plain cs hplain]
      rfl
    have htarget : resolveComps
        (joinPathChars ('/' :: joinC '/' cs) ('.' :: '.' :: '/' :: x)) =
        cs.dropLast ++ [x] := by
      have hj : joinPathChars ('/' :: joinC '/' cs) ('.' :: '.' :: '/' :: x) =
          '/' :: (joinC '/' cs ++ '/' :: ('.' :: '.' :: '/' :: x)) := by
        unfold joinPathChars
        rw [if_neg (by simp [isAbs])]
        rfl
      rw [hj]
      unfold resolveComps
      have hsp : splitC '/' ('/' :: (joinC '/' cs ++ '/' :: ('.' :: '.' :: '/' :: x))) =
          [] :: (cs ++ [['.', '.'], x]) := by
        have h1 : splitC '/' ('/' :: (joinC '/' cs ++ '/' :: ('.' :: '.' :: '/' :: x))) =
            [] :: splitC '/' (joinC '/' cs ++ '/' :: ('.' :: '.' :: '/' :: x)) := by
          simp [splitC]
        rw [h1, splitC_append_sep, splitC_joinC_slash cs hne hslash]
        have h2 : ('.' :: '.' :: '/' :: x) = ['.', '.'] ++ '/' :: x := rfl
        rw [h2, splitC_append_sep, splitC_noSep '/' ['.', '.'] (by decide),
          splitC_noSep '/' x hx.2.2.2]
        simp
      rw [hsp, normComps_eq_foldl]
      simp only [List.foldl_cons]
      have hstep : normStep [] [] = [] := by
        unfold normStep
        rw [if_pos (Or.inl rfl)]
      rw [hstep, List.foldl_append]
      rw [foldl_normStep_plain cs hplain []]
      simp only [List.foldl_cons, List.foldl_nil, List.nil_append]
      have hdots : normStep cs ['.', '.'] = cs.dropLast := by
        unfold normStep
        rw [if_neg (by simp), if_pos rfl]
      rw [hdots]
      unfold normStep
      rw [if_neg (by simp [hx.1, hx.2.1]), if_neg hx.2.2.1]
    unfold removedByCleanup
    rw [hdir, htarget]
    have hnp : ¬ (cs <+: cs.dropLast ++ [x]) := by
      intro hp
      have hlen : cs.length = (cs.dropLast ++ [x]).length := by
        have h1 : cs.dropLast.length = cs.length - 1 := List.length_dropLast cs
        have h2 : 0 < cs.length := List.length_pos.mpr hne
        simp only [List.length_append, List.length_cons, List.length_nil, h1]
        omega
      have heq := hp.eq_of_length hlen
      have : cs.getLast? = some x := by
        rw [heq, List.getLast?_concat]
      exact hlast this
    have hbf : cs.isPrefixOf (cs.dropLast ++ [x]) = false :=
      Bool.eq_false_iff.mpr (fun hb => hnp (List.isPrefixOf_iff_prefix.mp hb))
    rw [hbf]
    simp

theorem helper_path_no_containment_witness :
    ([['t', 'm', 'p'], ['m', 'c', 'p']] : List (List Char)) ≠ [] ∧
    plainComp ['e', 'v', 'i', 'l'] ∧
    removedByCleanup ('/' :: joinC '/' [['t', 'm', 'p'], ['m', 'c', 'p']])
      (joinPathChars ('/' :: joinC '/' [['t', 'm', 'p'], ['m', 'c', 'p']])
        ('.' :: '.' :: '/' :: ['e', 'v', 'i', 'l'])) = false := by
  refine ⟨by decide, by decide, ?_⟩
  exact (helper_path_no_containment testEnv [] "" ⟨"", [], [], []⟩).2.2
    [['t', 'm', 'p'], ['m', 'c', 'p']] ['e', 'v', 'i', 'l']
    (by decide) (by decide) (by decide) (by decide)

end Agent
